import Mathlib

/-!
Shallow embedding of the `amaryllis` avatar-generation library
(`src/lib.rs`, `src/utils.rs`) and proofs about its behaviour.

Modelling conventions:
* Rust `i32` dimensions are `Int`; the `u32::try_from(..).unwrap()` calls in
  the renderers fail exactly on negative values, so each renderer returns an
  `Option` pixel buffer, `none` standing for the aborted (panicking) call.
* RGBA colours (`[u8; 4]`) are a four-field structure of `Nat`s; the code
  only moves colour values around and never computes with them, so no modular
  arithmetic is needed.
* `f64`/`f32` values reaching external collaborators are modelled as `ℚ`.
* The external collaborators (rusttype/imageproc font rasterisation, the
  `noise` crate's OpenSimplex field, the `colorgrad` gradient) are not code
  of this repository; they enter the embedding as explicit function
  parameters, so every theorem quantifies over them.
* The ambient randomness `rand::thread_rng()` is embedded by explicit state
  passing: the render call receives the RNG state and the drawn seed is a
  function of it.
-/

/-- RGBA colour: the Rust `[u8; 4]` array (channels 0–255, only ever copied). -/
structure Rgba where
  r : Nat
  g : Nat
  b : Nat
  a : Nat
deriving DecidableEq, Repr

/-- A pixel buffer: the row-major `RgbaImage` grid, one list per row. -/
abbrev PixelBuf := List (List Rgba)

/-- Struct representing an avatar (`pub struct Avatar`, src/lib.rs:51-59). -/
structure Avatar where
  width : Int
  height : Int
  initials : Option String
  text_color : Option Rgba
deriving DecidableEq, Repr

/-- Rust `str::split(" ")` (standard-library collaborator), embedded over the
character list: tokens between single-space separators, empty tokens kept,
and a single empty token for the empty string.  A word is its character
sequence (Rust reads words through `word.chars()`). -/
def splitSpace : List Char → List (List Char)
  | [] => [[]]
  | c :: rest =>
    match splitSpace rest with
    | [] => [[]]
    | w :: ws => if c = ' ' then [] :: w :: ws else (c :: w) :: ws

/-- One iteration of the initials loop in `Avatar::new` (src/lib.rs:85-90):
for the current `word`, `pos` is the index of the first word of the split
equal to it (`name_split.clone().position(|x| x == word).unwrap()`); when
`pos == 0 || pos == count - 1` the word's first character is pushed, and the
`unwrap` of `word.chars().nth(0)` fails (`none`) on an empty word. -/
def pushInitial (ws : List (List Char)) (acc : Option String) (w : List Char) :
    Option String :=
  match acc with
  | none => none
  | some s =>
    if ws.indexOf w = 0 ∨ ws.indexOf w = ws.length - 1 then
      match w with
      | [] => none
      | c :: _ => some (s.push c)
    else
      some s

/-- The whole initials loop of `Avatar::new` (src/lib.rs:82-90), folded over
the words of the split; `none` models the panicking `unwrap`. -/
def mkInitials (ws : List (List Char)) : Option String :=
  ws.foldl (pushInitial ws) (some "")

/-- `Avatar::new` (src/lib.rs:71-110).  The result is `none` when the
construction panics (an empty word whose first occurrence in the split is at
the first or last position). -/
def Avatar.new (width height : Int) (name_string : Option String)
    (text_rgba : Option Rgba) : Option Avatar :=
  match name_string with
  | some name =>
    if text_rgba.isNone then
      some { width, height, initials := none, text_color := none }
    else
      match mkInitials (splitSpace name.toList) with
      | none => none
      | some ini =>
        some { width, height, initials := some ini, text_color := text_rgba }
  | none => some { width, height, initials := none, text_color := none }

/-- Font scale (`rusttype::Scale { x, y }`), the `f32` pair
`(width as f32 / 2.0, height as f32 / 2.0)`. -/
structure Scale where
  x : ℚ
  y : ℚ

/-- The external font collaborators: `imageproc::drawing::text_size` and
`draw_text_mut` over the bundled Roboto font.  They are library code, not
code of this repository, and are therefore parameters of the embedding. -/
structure FontOps where
  text_size : Scale → String → Int × Int
  draw_text : PixelBuf → Rgba → Int → Int → Scale → String → PixelBuf

/-- The text-overlay block that appears verbatim in both `Avatar::simple`
(src/lib.rs:137-164) and `Avatar::gradient` (src/lib.rs:209-236): when both
`initials` and `text_color` are present, measure the text at scale
`(width/2, height/2)` and draw it at
`(width/2 - text_width/2, height/2 - text_height/2 - 6)`; otherwise leave
the buffer unchanged. -/
def overlay (F : FontOps) (width height : Int) (initials : Option String)
    (text_color : Option Rgba) (buf : PixelBuf) : PixelBuf :=
  match initials with
  | some ini =>
    match text_color with
    | some tc =>
      let font_scale : Scale := ⟨(width : ℚ) / 2, (height : ℚ) / 2⟩
      let ts := F.text_size font_scale ini
      F.draw_text buf tc (width / 2 - ts.1 / 2) (height / 2 - ts.2 / 2 - 6)
        font_scale ini
    | none => buf
  | none => buf

/-- `ImageBuffer::new(w, h)`: a `h × w` grid of zero-initialised pixels. -/
def newBuf (w h : Nat) : PixelBuf :=
  List.replicate h (List.replicate w (Rgba.mk 0 0 0 0))

/-- The solid-fill loop of `Avatar::simple` (src/lib.rs:133-135): every pixel
of the buffer is assigned `color_rgba`. -/
def fillSolid (buf : PixelBuf) (c : Rgba) : PixelBuf :=
  buf.map (fun row => row.map (fun _ => c))

/-- `Avatar::simple` (src/lib.rs:127-167): allocate the buffer
(`u32::try_from(width).unwrap()` fails, i.e. `none`, exactly on a negative
dimension), fill it with the colour, then run the text overlay. -/
def Avatar.simple (F : FontOps) (av : Avatar) (color_rgba : Rgba) :
    Option PixelBuf :=
  if av.width < 0 ∨ av.height < 0 then none
  else
    let image_buf := fillSolid (newBuf av.width.toNat av.height.toNat) color_rgba
    some (overlay F av.width av.height av.initials av.text_color image_buf)

/-- Linear remap from `[a, b]` to `[c, d]` (src/utils.rs:2-4), an `f64`
computation embedded over `ℚ`.  The Rust body performs no validation and has
no error outcome; for `b = a` it divides by zero (IEEE: ±Inf/NaN), while the
`ℚ` embedding totalises `x / 0` as `0` — either way a plain value is
returned and no `DegenerateRemapRange` signal exists anywhere in the code. -/
def remap (t a b c d : ℚ) : ℚ :=
  (t - a) * ((d - c) / (b - a)) + c

/-- The per-render seed draw `rand::thread_rng().gen_range(0..4294967295)`
(src/lib.rs:196): a draw from the half-open range `[0, 4294967295)` as a
function of the reified RNG state.  `gen_range` with an exclusive upper
bound maps the RNG state uniformly onto `{0, …, 4294967294}`, embedded as
reduction of the state modulo the bound. -/
def genSeed (rng : Nat) : Nat :=
  rng % 4294967295

/-- The pixel loop of `Avatar::gradient` (src/lib.rs:203-207): pixel `(x, y)`
is coloured by feeding the noise value at `(x·scale, y·scale)` through
`remap (-1) 1 0 1` and the gradient. -/
def gradientFill (noise : ℚ → ℚ → ℚ) (w h : Nat) (noise_scale : ℚ)
    (gradient : ℚ → Rgba) : PixelBuf :=
  (List.range h).map (fun y =>
    (List.range w).map (fun x =>
      gradient (remap (noise ((x : ℚ) * noise_scale) ((y : ℚ) * noise_scale))
        (-1) 1 0 1)))

/-- `Avatar::gradient` (src/lib.rs:195-239): draw the seed from the RNG
state, allocate the buffer (failing on negative dimensions), run the noisy
gradient fill, then run the text overlay.  `mkNoise` embeds
`noise::OpenSimplex::new`: seed to noise field. -/
def Avatar.gradient (F : FontOps) (mkNoise : Nat → ℚ → ℚ → ℚ) (rng : Nat)
    (av : Avatar) (noise_scale : ℚ) (gradient : ℚ → Rgba) : Option PixelBuf :=
  let seed := genSeed rng
  if av.width < 0 ∨ av.height < 0 then none
  else
    let noise := mkNoise seed
    let image_buf := gradientFill noise av.width.toNat av.height.toNat
      noise_scale gradient
    some (overlay F av.width av.height av.initials av.text_color image_buf)

/-- A trivial concrete rasteriser, used only to instantiate the `FontOps`
parameter in closed statements. -/
def trivFont : FontOps where
  text_size := fun _ _ => (0, 0)
  draw_text := fun buf _ _ _ _ _ => buf

/-- Sanity check: `splitSpace` has the documented Rust `split(" ")`
semantics on representative inputs — plain words, the empty string, double
spaces, and a trailing space. -/
theorem splitSpace_examples :
    splitSpace "A B".toList = [['A'], ['B']] ∧
      splitSpace "".toList = [[]] ∧
      splitSpace "A  B".toList = [['A'], [], ['B']] ∧
      splitSpace "A B ".toList = [['A'], ['B'], []] := by decide

/-- Sanity check: a leading space panics the construction (empty first
word), matching the Rust `unwrap` behaviour. -/
theorem construct_panics_on_leading_space :
    Avatar.new 1 1 (some " A") (some ⟨0, 0, 0, 255⟩) = none := by decide

section IndexOfFacts

variable {α : Type _} [BEq α] [LawfulBEq α]

lemma indexOf_cons_self_eq (a : α) (l : List α) : (a :: l).indexOf a = 0 := by
  simp [List.indexOf, List.findIdx_cons]

lemma indexOf_cons_ne_eq {a b : α} (l : List α) (h : b ≠ a) :
    (b :: l).indexOf a = l.indexOf a + 1 := by
  have hb : (b == a) = false := beq_eq_false_iff_ne.mpr h
  simp [List.indexOf, List.findIdx_cons, hb]

lemma indexOf_append_of_mem_eq {a : α} {l₁ : List α} (l₂ : List α)
    (h : a ∈ l₁) : (l₁ ++ l₂).indexOf a = l₁.indexOf a := by
  induction l₁ with
  | nil => cases h
  | cons b t ih =>
    by_cases hba : b = a
    · subst hba
      rw [List.cons_append, indexOf_cons_self_eq, indexOf_cons_self_eq]
    · have h' : a ∈ t := by
        rcases List.mem_cons.mp h with h | h
        · exact absurd h.symm hba
        · exact h
      rw [List.cons_append, indexOf_cons_ne_eq _ hba, indexOf_cons_ne_eq _ hba,
        ih h']

lemma indexOf_append_of_not_mem_eq {a : α} {l₁ : List α} (l₂ : List α)
    (h : a ∉ l₁) : (l₁ ++ l₂).indexOf a = l₁.length + l₂.indexOf a := by
  induction l₁ with
  | nil => simp
  | cons b t ih =>
    have hba : b ≠ a := fun he => h (he ▸ List.mem_cons_self b t)
    have h' : a ∉ t := fun hm => h (List.mem_cons_of_mem _ hm)
    rw [List.cons_append, indexOf_cons_ne_eq _ hba, ih h', List.length_cons]
    omega

lemma indexOf_lt_length_of_mem {a : α} {l : List α} (h : a ∈ l) :
    l.indexOf a < l.length := by
  induction l with
  | nil => cases h
  | cons b t ih =>
    by_cases hba : b = a
    · subst hba
      simp [indexOf_cons_self_eq]
    · have h' : a ∈ t := by
        rcases List.mem_cons.mp h with h | h
        · exact absurd h.symm hba
        · exact h
      rw [indexOf_cons_ne_eq _ hba, List.length_cons]
      exact Nat.succ_lt_succ (ih h')

end IndexOfFacts

/-- Folding the initials loop from an already-failed accumulator stays
failed. -/
lemma foldl_pushInitial_none (ws l : List (List Char)) :
    List.foldl (pushInitial ws) none l = none := by
  induction l with
  | nil => rfl
  | cons w t ih => simpa [pushInitial] using ih

/-- Words whose first-occurrence index is neither `0` nor `count - 1`
contribute nothing to the initials accumulator. -/
lemma foldl_pushInitial_skip (ws l : List (List Char))
    (hl : ∀ w ∈ l, ¬(ws.indexOf w = 0 ∨ ws.indexOf w = ws.length - 1))
    (acc : Option String) : List.foldl (pushInitial ws) acc l = acc := by
  induction l generalizing acc with
  | nil => rfl
  | cons w t ih =>
    have hw := hl w (List.mem_cons_self w t)
    have hstep : pushInitial ws acc w = acc := by
      cases acc with
      | none => rfl
      | some s => simp [pushInitial, if_neg hw]
    rw [List.foldl_cons, hstep]
    exact ih (fun m hm => hl m (List.mem_cons_of_mem _ hm)) acc

/-- In a duplicate-free split, an intermediate word's first-occurrence index
is neither the first nor the last position. -/
lemma indexOf_mid_skip (w₀ : List Char) (mid : List (List Char))
    (wₗ : List Char) (hnd : (w₀ :: (mid ++ [wₗ])).Nodup) :
    ∀ m ∈ mid,
      ¬((w₀ :: (mid ++ [wₗ])).indexOf m = 0 ∨
        (w₀ :: (mid ++ [wₗ])).indexOf m = (w₀ :: (mid ++ [wₗ])).length - 1) := by
  intro m hm
  obtain ⟨h₀, -⟩ := List.nodup_cons.mp hnd
  have hmw : w₀ ≠ m := fun he => h₀ (he ▸ List.mem_append_left _ hm)
  have h₁ : (w₀ :: (mid ++ [wₗ])).indexOf m = ((mid ++ [wₗ]).indexOf m) + 1 :=
    indexOf_cons_ne_eq _ hmw
  have h₂ : (mid ++ [wₗ]).indexOf m = mid.indexOf m :=
    indexOf_append_of_mem_eq _ hm
  have h₃ : mid.indexOf m < mid.length := indexOf_lt_length_of_mem hm
  simp only [h₁, h₂, List.length_cons, List.length_append, List.length_singleton]
  omega

/-- In a duplicate-free split, the last word's first-occurrence index is the
last position. -/
lemma indexOf_last (w₀ : List Char) (mid : List (List Char)) (wₗ : List Char)
    (hnd : (w₀ :: (mid ++ [wₗ])).Nodup) :
    (w₀ :: (mid ++ [wₗ])).indexOf wₗ = (w₀ :: (mid ++ [wₗ])).length - 1 := by
  have hnd₂ : ((w₀ :: mid) ++ [wₗ]).Nodup := by rw [List.cons_append]; exact hnd
  have hdisj := (List.nodup_append.mp hnd₂).2.2
  have hnm : wₗ ∉ w₀ :: mid := fun hmem => hdisj hmem (List.mem_singleton_self wₗ)
  rw [← List.cons_append, indexOf_append_of_not_mem_eq _ hnm,
    indexOf_cons_self_eq]
  simp

/-- For a duplicate-free split of at least two words, the initials loop is
just the push of the first word followed by the push of the last word. -/
lemma mkInitials_two (w₀ : List Char) (mid : List (List Char)) (wₗ : List Char)
    (hnd : (w₀ :: (mid ++ [wₗ])).Nodup) :
    mkInitials (w₀ :: (mid ++ [wₗ])) =
      pushInitial (w₀ :: (mid ++ [wₗ]))
        (pushInitial (w₀ :: (mid ++ [wₗ])) (some "") w₀) wₗ := by
  unfold mkInitials
  rw [List.foldl_cons, List.foldl_append,
    foldl_pushInitial_skip _ _ (indexOf_mid_skip w₀ mid wₗ hnd),
    List.foldl_cons, List.foldl_nil]

/-- C1 counterexample: the name "A B B" has three space-separated words, yet
the constructed initials are "A" — not the first character of the first
word followed by the first character of the last word ("AB"), and not of
length 2.  The loop looks up each word's FIRST occurrence, and the last
word "B" first occurs at position 1, which is neither first nor last, so no
second initial is pushed. -/
theorem new_duplicate_words_initials_wrong :
    (splitSpace "A B B".toList).length = 3 ∧
      Avatar.new 1 1 (some "A B B") (some ⟨0, 0, 0, 255⟩)
        = some ⟨1, 1, some "A", some ⟨0, 0, 0, 255⟩⟩ ∧
      ("A" : String) ≠ "AB" ∧ ("A" : String).length ≠ 2 := by decide

/-- C1 amended: for every display name whose space-split consists of two or
more PAIRWISE-DISTINCT words, the first and last of which are nonempty,
construction with a text colour succeeds and the derived initials are the
first character of the first word followed by the first character of the
last word — length exactly 2. -/
theorem new_two_distinct_words_initials (width height : Int) (name : String)
    (tc : Rgba) (c₀ cₗ : Char) (t₀ tₗ : List Char) (mid : List (List Char))
    (hsplit : splitSpace name.toList = (c₀ :: t₀) :: (mid ++ [cₗ :: tₗ]))
    (hnd : ((c₀ :: t₀) :: (mid ++ [cₗ :: tₗ])).Nodup) :
    Avatar.new width height (some name) (some tc)
        = some ⟨width, height, some ⟨[c₀, cₗ]⟩, some tc⟩ ∧
      (⟨[c₀, cₗ]⟩ : String).length = 2 := by
  have hfirst : ((c₀ :: t₀) :: (mid ++ [cₗ :: tₗ])).indexOf (c₀ :: t₀) = 0 :=
    indexOf_cons_self_eq _ _
  have hlast := indexOf_last (c₀ :: t₀) mid (cₗ :: tₗ) hnd
  have hmk : mkInitials (splitSpace name.toList) = some ⟨[c₀, cₗ]⟩ := by
    rw [hsplit, mkInitials_two _ _ _ hnd]
    have h₁ : pushInitial ((c₀ :: t₀) :: (mid ++ [cₗ :: tₗ])) (some "")
        (c₀ :: t₀) = some ("".push c₀) := by
      simp [pushInitial, hfirst]
    rw [h₁]
    simp [pushInitial, hlast]
    rfl
  have hmk' : mkInitials (splitSpace name.data) = some ⟨[c₀, cₗ]⟩ := hmk
  refine ⟨?_, rfl⟩
  simp [Avatar.new, hmk']

/-- C1 witness. -/
theorem new_two_distinct_words_initials_at :
    splitSpace "John Middlename Doe".toList
        = (('J' :: ['o', 'h', 'n']) ::
            ([['M', 'i', 'd', 'd', 'l', 'e', 'n', 'a', 'm', 'e']] ++
              ['D' :: ['o', 'e']])) ∧
      (('J' :: ['o', 'h', 'n']) ::
          ([['M', 'i', 'd', 'd', 'l', 'e', 'n', 'a', 'm', 'e']] ++
            ['D' :: ['o', 'e']])).Nodup ∧
      (Avatar.new 200 200 (some "John Middlename Doe") (some ⟨0, 0, 0, 255⟩)
          = some ⟨200, 200, some ⟨['J', 'D']⟩, some ⟨0, 0, 0, 255⟩⟩ ∧
        (⟨['J', 'D']⟩ : String).length = 2) :=
  ⟨by decide, by decide,
    new_two_distinct_words_initials 200 200 "John Middlename Doe" ⟨0, 0, 0, 255⟩
      'J' 'D' ['o', 'h', 'n'] ['o', 'e']
      [['M', 'i', 'd', 'd', 'l', 'e', 'n', 'a', 'm', 'e']] (by decide)
      (by decide)⟩

/-- For a duplicate-free split, the initials are at most two characters. -/
lemma mkInitials_nodup_length_le_two (ws : List (List Char)) (hnd : ws.Nodup)
    (s : String) (h : mkInitials ws = some s) : s.length ≤ 2 := by
  cases ws with
  | nil =>
    simp only [mkInitials, List.foldl_nil, Option.some.injEq] at h
    rw [← h]
    decide
  | cons w₀ rest =>
    cases rest with
    | nil =>
      have hfirst : [w₀].indexOf w₀ = 0 := indexOf_cons_self_eq _ _
      simp only [mkInitials, List.foldl_cons, List.foldl_nil] at h
      cases w₀ with
      | nil => simp [pushInitial, hfirst] at h
      | cons c t =>
        have h₁ : pushInitial [c :: t] (some "") (c :: t)
            = some ("".push c) := by simp [pushInitial, hfirst]
        rw [h₁, Option.some.injEq] at h
        rw [← h]
        have hl : ("".push c).length = 1 := rfl
        omega
    | cons w₁ t =>
      have hne : (w₁ :: t) ≠ [] := by simp
      obtain ⟨mid, wₗ, hdecomp⟩ : ∃ mid wₗ, w₁ :: t = mid ++ [wₗ] :=
        ⟨(w₁ :: t).dropLast, (w₁ :: t).getLast hne,
          (List.dropLast_append_getLast hne).symm⟩
      rw [hdecomp] at h hnd
      rw [mkInitials_two _ _ _ hnd] at h
      have hfirst := indexOf_cons_self_eq w₀ (mid ++ [wₗ])
      have hlast := indexOf_last w₀ mid wₗ hnd
      cases w₀ with
      | nil => simp [pushInitial, hfirst] at h
      | cons c₀ t₀ =>
        have h₁ : pushInitial ((c₀ :: t₀) :: (mid ++ [wₗ])) (some "")
            (c₀ :: t₀) = some ("".push c₀) := by simp [pushInitial, hfirst]
        rw [h₁] at h
        cases wₗ with
        | nil => simp [pushInitial, hlast] at h
        | cons cₗ tₗ =>
          have h₂ : pushInitial ((c₀ :: t₀) :: (mid ++ [cₗ :: tₗ]))
              (some ("".push c₀)) (cₗ :: tₗ)
              = some (("".push c₀).push cₗ) := by simp [pushInitial, hlast]
          rw [h₂, Option.some.injEq] at h
          rw [← h]
          have hl : (("".push c₀).push cₗ).length = 2 := rfl
          omega

/-- C2 counterexample: the constructed initials can be longer than two
characters — for the name "A B A C" the loop pushes the first character of
both occurrences of "A" (each has first-occurrence position 0) and of "C",
yielding the three-character initials "AAC". -/
theorem constructed_initials_length_three :
    Avatar.new 1 1 (some "A B A C") (some ⟨0, 0, 0, 255⟩)
        = some ⟨1, 1, some "AAC", some ⟨0, 0, 0, 255⟩⟩ ∧
      ("AAC" : String).length = 3 := by decide

/-- C2 amended: for every name/text-colour input accepted by Construct, IF
the name's space-split is duplicate-free, then the `initials` field, when
present, is a string of at most 2 characters. -/
theorem constructed_initials_length_le_two (width height : Int)
    (name_string : Option String) (text_rgba : Option Rgba) (av : Avatar)
    (hnd : ∀ name, name_string = some name → (splitSpace name.toList).Nodup)
    (hnew : Avatar.new width height name_string text_rgba = some av)
    (s : String) (hs : av.initials = some s) : s.length ≤ 2 := by
  cases name_string with
  | none =>
    simp only [Avatar.new, Option.some.injEq] at hnew
    subst hnew
    simp at hs
  | some name =>
    by_cases htc : text_rgba.isNone
    · simp only [Avatar.new, htc, if_true, Option.some.injEq] at hnew
      subst hnew
      simp at hs
    · cases hmk : mkInitials (splitSpace name.toList) with
      | none =>
        simp only [Avatar.new, htc, if_false, Bool.false_eq_true, hmk] at hnew
        exact Option.noConfusion hnew
      | some ini =>
        simp only [Avatar.new, htc, if_false, Bool.false_eq_true, hmk,
          Option.some.injEq] at hnew
        subst hnew
        simp only [Option.some.injEq] at hs
        rw [← hs]
        exact mkInitials_nodup_length_le_two _ (hnd name rfl) ini hmk

/-- C2 witness. -/
theorem constructed_initials_length_le_two_at :
    (∀ name, (some "John Doe" : Option String) = some name →
        (splitSpace name.toList).Nodup) ∧
      Avatar.new 1 1 (some "John Doe") (some ⟨0, 0, 0, 255⟩)
        = some ⟨1, 1, some "JD", some ⟨0, 0, 0, 255⟩⟩ ∧
      (⟨1, 1, some "JD", some ⟨0, 0, 0, 255⟩⟩ : Avatar).initials = some "JD" ∧
      ("JD" : String).length ≤ 2 :=
  ⟨fun name h => by rw [← Option.some.injEq _ _ |>.mp h]; decide, by decide,
    rfl,
    constructed_initials_length_le_two 1 1 (some "John Doe")
      (some ⟨0, 0, 0, 255⟩) ⟨1, 1, some "JD", some ⟨0, 0, 0, 255⟩⟩
      (fun name h => by rw [← Option.some.injEq _ _ |>.mp h]; decide)
      (by decide) "JD" rfl⟩

/-- The initials fold fails exactly when some word of the list is empty and
its first-occurrence index is the first or last position. -/
lemma foldl_pushInitial_none_iff (ws l : List (List Char)) (s : String) :
    List.foldl (pushInitial ws) (some s) l = none ↔
      ∃ w ∈ l, w = [] ∧
        (ws.indexOf w = 0 ∨ ws.indexOf w = ws.length - 1) := by
  induction l generalizing s with
  | nil => simp
  | cons w t ih =>
    rw [List.foldl_cons]
    by_cases hcond : ws.indexOf w = 0 ∨ ws.indexOf w = ws.length - 1
    · rcases eq_or_ne w [] with rfl | hw
      · have hstep : pushInitial ws (some s) [] = none := by
          simp [pushInitial, hcond]
        rw [hstep, foldl_pushInitial_none]
        constructor
        · intro _
          exact ⟨[], List.mem_cons_self _ _, rfl, hcond⟩
        · intro _
          rfl
      · obtain ⟨c, cw, rfl⟩ := List.exists_cons_of_ne_nil hw
        have hstep : pushInitial ws (some s) (c :: cw) = some (s.push c) := by
          simp [pushInitial, hcond]
        rw [hstep, ih]
        constructor
        · rintro ⟨w', hm, he, hc⟩
          exact ⟨w', List.mem_cons_of_mem _ hm, he, hc⟩
        · rintro ⟨w', hm, he, hc⟩
          rcases List.mem_cons.mp hm with rfl | hmem
          · exact absurd he (by simp)
          · exact ⟨w', hmem, he, hc⟩
    · have hstep : pushInitial ws (some s) w = some s := by
        simp [pushInitial, hcond]
      rw [hstep, ih]
      constructor
      · rintro ⟨w', hm, he, hc⟩
        exact ⟨w', List.mem_cons_of_mem _ hm, he, hc⟩
      · rintro ⟨w', hm, he, hc⟩
        rcases List.mem_cons.mp hm with rfl | hmem
        · exact absurd hc hcond
        · exact ⟨w', hmem, he, hc⟩

/-- The initials computation panics exactly when the empty word's first
occurrence in the split is at the first or last position. -/
lemma mkInitials_eq_none_iff (ws : List (List Char)) :
    mkInitials ws = none ↔
      ([] ∈ ws ∧ (ws.indexOf [] = 0 ∨ ws.indexOf [] = ws.length - 1)) := by
  unfold mkInitials
  rw [foldl_pushInitial_none_iff]
  constructor
  · rintro ⟨w, hm, rfl, hc⟩
    exact ⟨hm, hc⟩
  · rintro ⟨hm, hc⟩
    exact ⟨[], hm, rfl, hc⟩

/-- C10 counterexample: the name "A  B" (two consecutive spaces) splits to a
list containing an empty token, yet construction succeeds and returns a
descriptor with initials "AB" — the empty token sits at position 1 of 3,
which is neither first nor last, so its first character is never taken. -/
theorem construct_succeeds_with_inner_empty_token :
    ([] ∈ splitSpace "A  B".toList) ∧
      Avatar.new 1 1 (some "A  B") (some ⟨0, 0, 0, 255⟩)
        = some ⟨1, 1, some "AB", some ⟨0, 0, 0, 255⟩⟩ := by decide

/-- C10 amended: for every name given to Construct with a present text
colour, construction panics (returns no descriptor) exactly when the
split's empty token has its first occurrence at the first or the last
position — i.e. the first token is empty, or the last token is empty and no
earlier token is empty.  Empty tokens whose first occurrence is in an
intermediate position are skipped and a descriptor is returned. -/
theorem construct_panics_iff_empty_first_or_last (width height : Int)
    (name : String) (tc : Rgba) :
    Avatar.new width height (some name) (some tc) = none ↔
      ([] ∈ splitSpace name.toList ∧
        ((splitSpace name.toList).indexOf [] = 0 ∨
          (splitSpace name.toList).indexOf []
            = (splitSpace name.toList).length - 1)) := by
  rw [← mkInitials_eq_none_iff]
  cases hmk : mkInitials (splitSpace name.toList) with
  | none =>
    have hmk' : mkInitials (splitSpace name.data) = none := hmk
    simp [Avatar.new, hmk']
  | some ini =>
    have hmk' : mkInitials (splitSpace name.data) = some ini := hmk
    simp [Avatar.new, hmk']

/-- C9: `remap` with fixed parameters `a = -1, b = 1, c = 0, d = 1` is the
identity-affine map from `[-1, 1]` to `[0, 1]`: it sends `-1` to `0`, `1` to
`1` and `0` to `0.5`.  Every `f64` operation involved is exact (operands and
results are representable), so the `ℚ` embedding computes the same values
the Rust code does. -/
theorem remap_identity_affine :
    remap (-1) (-1) 1 0 1 = 0 ∧ remap 1 (-1) 1 0 1 = 1 ∧
      remap 0 (-1) 1 0 1 = 1 / 2 := by
  refine ⟨?_, ?_, ?_⟩ <;> norm_num [remap]

/-- C3: the claim says a call with `a = b` signals a `DegenerateRemapRange`
error and never silently divides by zero, but `remap` (src/utils.rs:2-4) has
no error outcome at all — its result type is a plain number, there is no
validation, and no error type exists anywhere in the repository.  For every
degenerate call the body divides by zero and still returns a plain value
(`ℚ` totalises `x / 0` as `0`, so the result is `c`; in Rust's `f64`
arithmetic the same call silently yields `±Inf` or `NaN`). -/
theorem remap_degenerate_no_error (t a c d : ℚ) : remap t a a c d = c := by
  simp [remap]

/-- C5 counterexample: the seed draw `gen_range(0..4294967295)`
(src/lib.rs:196) uses an exclusive upper bound, so the seed value
`4294967295 = 2^32 - 1` can never be drawn — the draw does not cover the
full 32-bit unsigned range, refuting the claim at that input. -/
theorem seed_max_unreachable : ¬ ∃ rng : Nat, genSeed rng = 4294967295 := by
  rintro ⟨rng, h⟩
  have hlt : genSeed rng < 4294967295 := Nat.mod_lt _ (by norm_num)
  omega

/-- C5 amended: the per-render seed draw covers exactly the half-open range
`[0, 4294967295)`: every seed strictly below `4294967295` is a possible
outcome of the draw, and every draw lands strictly below `4294967295`. -/
theorem seed_draw_range (s : Nat) (h : s < 4294967295) :
    (∃ rng : Nat, genSeed rng = s) ∧ ∀ rng : Nat, genSeed rng < 4294967295 := by
  constructor
  · exact ⟨s, Nat.mod_eq_of_lt h⟩
  · intro rng
    exact Nat.mod_lt _ (by norm_num)

/-- C5 witness. -/
theorem seed_draw_range_at_42 :
    42 < 4294967295 ∧
      ((∃ rng : Nat, genSeed rng = 42) ∧
        ∀ rng : Nat, genSeed rng < 4294967295) :=
  ⟨by norm_num, seed_draw_range 42 (by norm_num)⟩

/-- C4: with the per-render seed draw reified as the explicit RNG-state
input (the standard embedding of `rand::thread_rng()`), `RenderGradient` is
deterministic once the seed is pinned: the RNG state influences the output
only through the drawn seed, so two calls with identical descriptor, noise
scale, gradient and drawn seed produce byte-identical pixel buffers. -/
theorem gradient_deterministic_given_seed (F : FontOps)
    (mkNoise : Nat → ℚ → ℚ → ℚ) (r₁ r₂ : Nat) (av : Avatar) (ns : ℚ)
    (g : ℚ → Rgba) (h : genSeed r₁ = genSeed r₂) :
    Avatar.gradient F mkNoise r₁ av ns g = Avatar.gradient F mkNoise r₂ av ns g := by
  unfold Avatar.gradient
  rw [h]

/-- C4 witness: RNG states `4294967295` and `0` draw the same seed. -/
theorem gradient_deterministic_given_seed_at :
    genSeed 4294967295 = genSeed 0 ∧
      Avatar.gradient trivFont (fun _ _ _ => 0) 4294967295 ⟨1, 1, none, none⟩ 0
          (fun _ => ⟨0, 0, 0, 0⟩)
        = Avatar.gradient trivFont (fun _ _ _ => 0) 0 ⟨1, 1, none, none⟩ 0
          (fun _ => ⟨0, 0, 0, 0⟩) :=
  ⟨by decide, gradient_deterministic_given_seed _ _ _ _ _ _ _ (by decide)⟩

/-- C6 counterexample: a zero dimension does not abort the render — for a
`0 × 5` descriptor, `simple` succeeds and returns a (zero-pixel) buffer of
five empty rows, refuting the claim that every non-positive dimension makes
every render call fail and return no buffer. -/
theorem simple_succeeds_on_zero_width :
    Avatar.simple trivFont ⟨0, 5, none, none⟩ ⟨1, 2, 3, 4⟩
      = some [[], [], [], [], []] := by decide

/-- C6 amended: a negative width or height makes both render calls fail
(the `u32::try_from(..).unwrap()` panics) and return no pixel buffer; zero
dimensions are accepted and yield an empty buffer. -/
theorem render_fails_on_negative_dims (F : FontOps)
    (mkNoise : Nat → ℚ → ℚ → ℚ) (rng : Nat) (av : Avatar) (c : Rgba) (ns : ℚ)
    (g : ℚ → Rgba) (h : av.width < 0 ∨ av.height < 0) :
    Avatar.simple F av c = none ∧
      Avatar.gradient F mkNoise rng av ns g = none := by
  constructor
  · unfold Avatar.simple
    rw [if_pos h]
  · unfold Avatar.gradient
    rw [if_pos h]

/-- C6 witness. -/
theorem render_fails_on_negative_dims_at :
    ((⟨-3, 7, none, none⟩ : Avatar).width < 0 ∨
        (⟨-3, 7, none, none⟩ : Avatar).height < 0) ∧
      (Avatar.simple trivFont ⟨-3, 7, none, none⟩ ⟨0, 0, 0, 0⟩ = none ∧
        Avatar.gradient trivFont (fun _ _ _ => 0) 0 ⟨-3, 7, none, none⟩ 0
          (fun _ => ⟨0, 0, 0, 0⟩) = none) :=
  ⟨by decide,
    render_fails_on_negative_dims trivFont (fun _ _ _ => 0) 0 ⟨-3, 7, none, none⟩
      ⟨0, 0, 0, 0⟩ 0 (fun _ => ⟨0, 0, 0, 0⟩) (by decide)⟩

/-- C7: constructing with a name but no text colour yields a descriptor with
`initials = none`, and both render calls on that descriptor return exactly
the pure background fill — the right-hand sides below never invoke the font
rasteriser `F`, so no text is ever drawn, whatever fill colours, noise or
gradients later calls supply. -/
theorem name_without_color_draws_no_text (width height : Int) (name : String)
    (F : FontOps) (c : Rgba) (mkNoise : Nat → ℚ → ℚ → ℚ) (rng : Nat) (ns : ℚ)
    (g : ℚ → Rgba) :
    Avatar.new width height (some name) none
        = some ⟨width, height, none, none⟩ ∧
      Avatar.simple F ⟨width, height, none, none⟩ c
        = (if width < 0 ∨ height < 0 then none
           else some (fillSolid (newBuf width.toNat height.toNat) c)) ∧
      Avatar.gradient F mkNoise rng ⟨width, height, none, none⟩ ns g
        = (if width < 0 ∨ height < 0 then none
           else some (gradientFill (mkNoise (genSeed rng)) width.toNat
             height.toNat ns g)) := by
  refine ⟨rfl, ?_, ?_⟩
  · unfold Avatar.simple
    split <;> rfl
  · unfold Avatar.gradient
    split <;> rfl

/-- C8: on a descriptor with positive dimensions and no initials, `simple`
returns a buffer of exactly `height` rows of `width` pixels in which every
pixel equals the fill colour. -/
theorem simple_solid_fill (F : FontOps) (av : Avatar) (c : Rgba)
    (hini : av.initials = none) (hw : 0 < av.width) (hh : 0 < av.height) :
    Avatar.simple F av c
        = some (List.replicate av.height.toNat (List.replicate av.width.toNat c)) ∧
      (List.replicate av.height.toNat (List.replicate av.width.toNat c)).length
        = av.height.toNat ∧
      ∀ row ∈ List.replicate av.height.toNat (List.replicate av.width.toNat c),
        row.length = av.width.toNat ∧ ∀ px ∈ row, px = c := by
  refine ⟨?_, by simp, ?_⟩
  · unfold Avatar.simple
    rw [if_neg (by omega)]
    simp only [fillSolid, newBuf, List.map_replicate, overlay, hini]
  · intro row hrow
    rw [List.eq_of_mem_replicate hrow]
    exact ⟨by simp, fun px hpx => List.eq_of_mem_replicate hpx⟩

/-- C8 witness. -/
theorem simple_solid_fill_at :
    (⟨2, 3, none, none⟩ : Avatar).initials = none ∧
      0 < (⟨2, 3, none, none⟩ : Avatar).width ∧
      0 < (⟨2, 3, none, none⟩ : Avatar).height ∧
      (Avatar.simple trivFont ⟨2, 3, none, none⟩ ⟨9, 8, 7, 6⟩
          = some (List.replicate 3 (List.replicate 2 (⟨9, 8, 7, 6⟩ : Rgba))) ∧
        (List.replicate 3 (List.replicate 2 (⟨9, 8, 7, 6⟩ : Rgba))).length = 3 ∧
        ∀ row ∈ List.replicate 3 (List.replicate 2 (⟨9, 8, 7, 6⟩ : Rgba)),
          row.length = 2 ∧ ∀ px ∈ row, px = (⟨9, 8, 7, 6⟩ : Rgba)) :=
  ⟨rfl, by decide, by decide,
    simple_solid_fill trivFont ⟨2, 3, none, none⟩ ⟨9, 8, 7, 6⟩ rfl (by decide)
      (by decide)⟩
